import Mathlib

/-!
Shallow embedding of `src/main.rs` (graph shortest-path statistics): a
directed graph stored as an adjacency map from node to its list of
out-neighbours, the single-source traversal `Graph.bfs`, and the statistics
derived from the distance map it returns.

Modelling conventions, fixed once for the whole file:
* `HashMap` is an insertion-ordered association list whose keys are unique
  (`hmGet` models `get`, `hmInsert` models `insert`, `entryPush` models
  `entry(..).or_insert(Vec::new()).push(..)`);
* `HashSet` is a `Finset`;
* `u32` and `usize` are `ℕ` — the source only compares node identifiers and
  increments hop counts, which stay below the number of nodes, so no machine
  overflow is reachable;
* the `f64` results of the two divisions are `Option ℚ`, `none` standing for
  a non-finite IEEE value (NaN or an infinity), produced exactly by dividing
  by zero (`f64div`);
* the unbounded `while let Some(..) = queue.pop()` loop is a fuel-indexed
  function `wlLoopF`; `Graph.bfs` runs it with fuel `(nodeUniv g).card + 1`,
  which the termination theorem for claim C7 proves is never exhausted, so
  the model computes exactly what the source loop computes.
-/

/-- Node identifiers (`u32` in the source; only compared, never added). -/
abbrev Node := ℕ

/-- Model of `HashMap::get`: the value stored for the queried key, if any. -/
def hmGet {β : Type} : List (Node × β) → Node → Option β
  | [], _ => none
  | (k, v) :: rest, k2 => if k = k2 then some v else hmGet rest k2

/-- Model of `HashMap::insert`: replace the value bound to the key, or append
a new binding at the end. -/
def hmInsert {β : Type} : List (Node × β) → Node → β → List (Node × β)
  | [], k, v => [(k, v)]
  | (k2, v2) :: rest, k, v =>
    if k2 = k then (k, v) :: rest else (k2, v2) :: hmInsert rest k v

/-- The keys of an association map. -/
def keys {β : Type} (m : List (Node × β)) : List Node := m.map Prod.fst

/-- Model of `self.edges.entry(from).or_insert(Vec::new()).push(to)`: append
`to` to the neighbour list of `from`, creating the entry if absent. -/
def entryPush : List (Node × List Node) → Node → Node → List (Node × List Node)
  | [], f, t => [(f, [t])]
  | (k, vs) :: rest, f, t =>
    if k = f then (k, vs ++ [t]) :: rest else (k, vs) :: entryPush rest f t

/-- `struct Graph { edges: HashMap<u32, Vec<u32>> }`; `nodupKeys` records the
`HashMap` guarantee that keys are distinct. -/
structure Graph where
  edges : List (Node × List Node)
  nodupKeys : (keys edges).Nodup

/-- `Graph::new`. -/
def Graph.new : Graph := ⟨[], by simp [keys]⟩

/-- `Graph::add_edge`. -/
def Graph.add_edge (g : Graph) (f t : Node) : Graph :=
  ⟨entryPush g.edges f t, by
    have hmem : ∀ (m : List (Node × List Node)) (x : Node),
        x ∈ keys (entryPush m f t) → x = f ∨ x ∈ keys m := by
      intro m
      induction m with
      | nil =>
        intro x hx
        simp [entryPush, keys] at hx
        exact Or.inl hx
      | cons p rest ih =>
        obtain ⟨k, vs⟩ := p
        intro x hx
        by_cases hk : k = f
        · simp only [entryPush, if_pos hk, keys, List.map_cons, List.mem_cons] at hx ⊢
          tauto
        · simp only [entryPush, if_neg hk, keys, List.map_cons, List.mem_cons] at hx ⊢
          rcases hx with h | h
          · tauto
          · rcases ih x h with h2 | h2 <;> tauto
    have hnd : ∀ (m : List (Node × List Node)), (keys m).Nodup →
        (keys (entryPush m f t)).Nodup := by
      intro m
      induction m with
      | nil => intro _; simp [entryPush, keys]
      | cons p rest ih =>
        obtain ⟨k, vs⟩ := p
        intro hu
        simp only [keys, List.map_cons, List.nodup_cons] at hu
        by_cases hk : k = f
        · simp only [entryPush, if_pos hk, keys, List.map_cons, List.nodup_cons]
          exact hu
        · simp only [entryPush, if_neg hk, keys, List.map_cons, List.nodup_cons]
          refine ⟨fun hx => ?_, ih hu.2⟩
          rcases hmem rest k hx with h | h
          · exact hk h
          · exact hu.1 h
    exact hnd g.edges g.nodupKeys⟩

/-- The neighbour lookup the traversal performs:
`if let Some(neighbors) = self.edges.get(&node)`, an absent node yielding the
empty neighbour list. -/
def Graph.neighbors (g : Graph) (node : Node) : List Node :=
  (hmGet g.edges node).getD []

/-- The spec's `node_count()`: `self.edges.len()`, the number of keys of the
adjacency map. -/
def Graph.node_count (g : Graph) : ℕ := g.edges.length

/-- The worklist is Rust's `Vec<(u32, usize)>` written with its most recently
pushed pair first, so `Vec::push` (at the back) is cons and `Vec::pop` (from
the back) removes the head. -/
def pushStack (q : List (Node × ℕ)) (e : Node × ℕ) : List (Node × ℕ) := e :: q

/-- The FIFO removal discipline of the spec's queue variant: the pair removed
first is the head, and pushes append at the back. -/
def pushQueueBack (q : List (Node × ℕ)) (e : Node × ℕ) : List (Node × ℕ) := q ++ [e]

/-- One neighbour step of the loop body:
`if !visited.contains(&neighbor) { visited.insert(neighbor);
queue.push((neighbor, distance + 1)); }`. -/
def wlStep (push : List (Node × ℕ) → Node × ℕ → List (Node × ℕ)) (d : ℕ)
    (p : Finset Node × List (Node × ℕ)) (nb : Node) :
    Finset Node × List (Node × ℕ) :=
  if nb ∈ p.1 then p else (insert nb p.1, push p.2 (nb, d + 1))

/-- Every node the loop body can ever push: the targets of all edges. -/
def nodeUniv (g : Graph) : Finset Node :=
  ((g.edges.map Prod.snd).flatten).toFinset

/-- The `while let Some((node, distance)) = queue.pop()` loop of `Graph::bfs`,
fuel-indexed: record the popped pair in the distance map, then mark and push
every not-yet-visited neighbour with distance one more.  `none` means the
fuel ran out before the worklist emptied; the termination theorem (claim C7)
shows fuel `(nodeUniv g).card + 1` always suffices, so with that fuel the
function computes exactly what the source's unbounded loop computes. -/
def wlLoopF (g : Graph) (push : List (Node × ℕ) → Node × ℕ → List (Node × ℕ)) :
    ℕ → Finset Node → List (Node × ℕ) → List (Node × ℕ) →
    Option (List (Node × ℕ))
  | _, _, distances, [] => some distances
  | 0, _, _, _ :: _ => none
  | n + 1, visited, distances, (node, d) :: rest =>
    wlLoopF g push n
      ((g.neighbors node).foldl (wlStep push d) (visited, rest)).1
      (hmInsert distances node d)
      ((g.neighbors node).foldl (wlStep push d) (visited, rest)).2

/-- `Graph::bfs`: visited seeded with the source, worklist seeded with
`(source, 0)`, LIFO removal (`Vec::pop`). -/
def Graph.bfs (g : Graph) (source : Node) : List (Node × ℕ) :=
  (wlLoopF g pushStack ((nodeUniv g).card + 1) {source} [] [(source, 0)]).getD []

/-- The spec's queue-discipline variant of the traversal, for the
refinement-equivalence claim C2: identical to `Graph.bfs` except that the
worklist is removed from in FIFO order. -/
def Graph.bfsFifo (g : Graph) (source : Node) : List (Node × ℕ) :=
  (wlLoopF g pushQueueBack ((nodeUniv g).card + 1) {source} [] [(source, 0)]).getD []

/-- Model of an `f64` division whose operands are exact: dividing a finite
value by zero never yields a finite result (here `0.0 / 0.0`, a NaN), so the
result is `none`; otherwise the division is exact over `ℚ`. -/
def f64div (a b : ℚ) : Option ℚ := if b = 0 then none else some (a / b)

/-- `Graph::average_shortest_path_length`:
`distances.values().sum() as f64 / self.edges.len() as f64`. -/
def Graph.average_shortest_path_length (g : Graph) (source : Node) : Option ℚ :=
  f64div ((((g.bfs source).map Prod.snd).sum : ℕ) : ℚ) (g.node_count : ℚ)

/-- `Graph::standard_deviation` up to its final `sqrt`: the sum of squared
differences from the average, divided by `self.edges.len() as f64`.  The
square root of a rational is irrational in general, and it maps a finite
non-negative `f64` to a finite one and a non-finite one to a non-finite one,
so this squared value is `none` exactly when the source's result is not a
finite number.  A `none` average makes every squared difference non-finite,
which the `match` propagates, exactly as NaN propagates in the source. -/
def Graph.standard_deviation_sq (g : Graph) (source : Node) : Option ℚ :=
  match g.average_shortest_path_length source with
  | none => none
  | some avg =>
    f64div (((g.bfs source).map Prod.snd).foldl
        (fun acc d => acc + ((d : ℚ) - avg) ^ 2) 0)
      (g.node_count : ℚ)

/-- `usize::MAX` on the 64-bit target the source assumes. -/
def USIZE_MAX : ℕ := 2 ^ 64 - 1

/-- `Graph::max_shortest_path_length`:
`*distances.values().max().unwrap_or(&usize::MAX)`. -/
def Graph.max_shortest_path_length (g : Graph) (source : Node) : ℕ :=
  (((g.bfs source).map Prod.snd).max?).getD USIZE_MAX

/-- `Graph::min_shortest_path_length`:
`*distances.values().min().unwrap_or(&usize::MAX)`. -/
def Graph.min_shortest_path_length (g : Graph) (source : Node) : ℕ :=
  (((g.bfs source).map Prod.snd).min?).getD USIZE_MAX

/-- `Graph::median_shortest_path_length`: sort the distance values ascending,
then take the middle value (odd count) or the truncating integer mean of the
two middle values (even count).  The source indexes the sorted `Vec`
directly; both indices are in bounds because the distance map always holds
the source node (shown for claim C8), so the `getD` defaults are never
consulted. -/
def Graph.median_shortest_path_length (g : Graph) (source : Node) : ℕ :=
  let distances := ((g.bfs source).map Prod.snd).mergeSort (fun a b => decide (a ≤ b))
  let n := distances.length
  if n % 2 = 0 then (distances.getD (n / 2 - 1) 0 + distances.getD (n / 2) 0) / 2
  else distances.getD (n / 2) 0

/-- The sorted copy of the distance values that
`median_shortest_path_length` builds: `distances.sort()` on the collected
values. -/
def sortedDistances (g : Graph) (source : Node) : List ℕ :=
  ((g.bfs source).map Prod.snd).mergeSort (fun a b => decide (a ≤ b))

/-- Directed paths: `ReachN g s k x` holds when there is a walk of exactly
`k` forward edges from `s` to `x`. -/
inductive ReachN (g : Graph) (s : Node) : ℕ → Node → Prop where
  | refl : ReachN g s 0 s
  | step : ∀ {k u v}, ReachN g s k u → v ∈ g.neighbors u → ReachN g s (k + 1) v

/-- `x` is reachable from `s` by following edges forward. -/
def Reach (g : Graph) (s x : Node) : Prop := ∃ k, ReachN g s k x

/-- The loop invariant of the traversal, for either removal discipline:
the source is visited; the recorded keys are distinct, visited and have all
their neighbours visited; every worklist entry is visited; every visited node
is recorded or pending; everything visited is reachable; and the source's
distance is recorded as `0` or still pending as `(s, 0)`. -/
def TravInv (g : Graph) (s : Node) (v : Finset Node)
    (dist q : List (Node × ℕ)) : Prop :=
  s ∈ v ∧
  (keys dist).Nodup ∧
  (∀ x ∈ keys dist, x ∈ v) ∧
  (∀ e ∈ q, e.1 ∈ v) ∧
  (∀ x ∈ v, x ∈ keys dist ∨ ∃ d, (x, d) ∈ q) ∧
  (∀ x ∈ v, Reach g s x) ∧
  (∀ x ∈ keys dist, ∀ nb ∈ g.neighbors x, nb ∈ v) ∧
  (hmGet dist s = some 0 ∨ (s, 0) ∈ q) ∧
  (∀ e ∈ q, e.1 = s → e.2 = 0)

/-- What the traversal guarantees of its result: one entry per key, the
source recorded at distance `0`, every key reachable, and the key set closed
under forward edges. -/
def TravOut (g : Graph) (s : Node) (m : List (Node × ℕ)) : Prop :=
  (keys m).Nodup ∧
  hmGet m s = some 0 ∧
  s ∈ keys m ∧
  (∀ x ∈ keys m, Reach g s x) ∧
  (∀ x ∈ keys m, ∀ nb ∈ g.neighbors x, nb ∈ keys m)

/-- Concrete graph with edges 0→1, 0→2, 2→3, 3→4, 1→4: node 4 is two hops
from node 0 through node 1, yet the LIFO worklist reaches it first through
the three-hop walk 0→2→3→4. -/
def gDeep : Graph :=
  ((((Graph.new.add_edge 0 1).add_edge 0 2).add_edge 2 3).add_edge 3 4).add_edge 1 4

/-- Concrete graph with edges 0→1, 1→4, 0→2, 2→3: here the LIFO traversal
records node 4 at its true distance 2. -/
def gShort : Graph :=
  (((Graph.new.add_edge 0 1).add_edge 1 4).add_edge 0 2).add_edge 2 3

/-- Concrete one-edge graph 0→1. -/
def gOne : Graph := Graph.new.add_edge 0 1

theorem hmGet_mem {β : Type} :
    ∀ (m : List (Node × β)) (k : Node) (v : β), hmGet m k = some v → (k, v) ∈ m := by
  intro m
  induction m with
  | nil => intro k v h; simp [hmGet] at h
  | cons p rest ih =>
    obtain ⟨k2, v2⟩ := p
    intro k v h
    by_cases hk : k2 = k
    · simp only [hmGet, if_pos hk] at h
      obtain rfl := Option.some.inj h
      simp [hk]
    · simp only [hmGet, if_neg hk] at h
      exact List.mem_cons_of_mem _ (ih k v h)

theorem mem_keys_iff {β : Type} (m : List (Node × β)) (x : Node) :
    x ∈ keys m ↔ ∃ v, (x, v) ∈ m := by
  simp only [keys, List.mem_map]
  constructor
  · rintro ⟨⟨a, b⟩, hm, rfl⟩
    exact ⟨b, hm⟩
  · rintro ⟨v, hv⟩
    exact ⟨(x, v), hv, rfl⟩

theorem keys_hmInsert {β : Type} :
    ∀ (m : List (Node × β)) (k : Node) (a : β) (x : Node),
      x ∈ keys (hmInsert m k a) ↔ x = k ∨ x ∈ keys m := by
  intro m
  induction m with
  | nil => intro k a x; simp [hmInsert, keys]
  | cons p rest ih =>
    obtain ⟨k2, v2⟩ := p
    intro k a x
    by_cases hk : k2 = k
    · simp only [hmInsert]
      rw [if_pos hk]
      simp only [keys, List.map_cons, List.mem_cons]
      subst hk
      tauto
    · simp only [hmInsert, if_neg hk, keys, List.map_cons, List.mem_cons]
      rw [show (List.map Prod.fst (hmInsert rest k a)) = keys (hmInsert rest k a) from rfl]
      rw [ih k a x]
      simp only [keys]
      tauto

theorem keys_hmInsert_nodup {β : Type} :
    ∀ (m : List (Node × β)) (k : Node) (a : β),
      (keys m).Nodup → (keys (hmInsert m k a)).Nodup := by
  intro m
  induction m with
  | nil => intro k a _; simp [hmInsert, keys]
  | cons p rest ih =>
    obtain ⟨k2, v2⟩ := p
    intro k a hnd
    simp only [keys, List.map_cons, List.nodup_cons] at hnd
    by_cases hk : k2 = k
    · simp only [hmInsert]
      rw [if_pos hk]
      simp only [keys, List.map_cons, List.nodup_cons]
      subst hk
      exact hnd
    · simp only [hmInsert, if_neg hk, keys, List.map_cons, List.nodup_cons]
      refine ⟨fun hx => ?_, ih k a hnd.2⟩
      rcases (keys_hmInsert rest k a k2).mp hx with h | h
      · exact hk h
      · exact hnd.1 h

theorem hmGet_hmInsert_self {β : Type} :
    ∀ (m : List (Node × β)) (k : Node) (a : β), hmGet (hmInsert m k a) k = some a := by
  intro m
  induction m with
  | nil => intro k a; simp [hmInsert, hmGet]
  | cons p rest ih =>
    obtain ⟨k2, v2⟩ := p
    intro k a
    by_cases hk : k2 = k
    · simp [hmInsert, if_pos hk, hmGet]
    · simp only [hmInsert, if_neg hk, hmGet, if_neg hk]
      exact ih k a

theorem hmGet_hmInsert_ne {β : Type} :
    ∀ (m : List (Node × β)) (k : Node) (a : β) (x : Node), x ≠ k →
      hmGet (hmInsert m k a) x = hmGet m x := by
  intro m
  induction m with
  | nil =>
    intro k a x hx
    simp only [hmInsert, hmGet]
    rw [if_neg (fun h => hx h.symm)]
  | cons p rest ih =>
    obtain ⟨k2, v2⟩ := p
    intro k a x hx
    by_cases hk : k2 = k
    · subst hk
      simp only [hmInsert, if_pos rfl, hmGet]
      rw [if_neg (fun h => hx h.symm), if_neg (fun h => hx h.symm)]
    · simp only [hmInsert, if_neg hk, hmGet]
      by_cases h2 : k2 = x
      · rw [if_pos h2, if_pos h2]
      · rw [if_neg h2, if_neg h2]
        exact ih k a x hx

theorem hmGet_flatten_sub :
    ∀ (m : List (Node × List Node)) (k : Node) (vs : List Node),
      hmGet m k = some vs → ∀ x ∈ vs, x ∈ (m.map Prod.snd).flatten := by
  intro m
  induction m with
  | nil => intro k vs h; simp [hmGet] at h
  | cons p rest ih =>
    obtain ⟨k2, v2⟩ := p
    intro k vs h x hx
    simp only [List.map_cons, List.flatten_cons, List.mem_append]
    by_cases hk : k2 = k
    · simp only [hmGet, if_pos hk] at h
      obtain rfl := Option.some.inj h
      exact Or.inl hx
    · simp only [hmGet, if_neg hk] at h
      exact Or.inr (ih k vs h x hx)

theorem neighbors_mem_univ (g : Graph) (node : Node) :
    ∀ nb ∈ g.neighbors node, nb ∈ nodeUniv g := by
  intro nb hnb
  unfold Graph.neighbors at hnb
  cases h : hmGet g.edges node with
  | none => rw [h] at hnb; simp at hnb
  | some vs =>
    rw [h] at hnb
    simp only [Option.getD_some] at hnb
    unfold nodeUniv
    rw [List.mem_toFinset]
    exact hmGet_flatten_sub g.edges node vs h nb hnb

theorem foldl_wlStep_mem (push : List (Node × ℕ) → Node × ℕ → List (Node × ℕ))
    (hpush : ∀ (q : List (Node × ℕ)) (e x : Node × ℕ), x ∈ push q e ↔ x ∈ q ∨ x = e)
    (d : ℕ) :
    ∀ (nbrs : List Node) (v : Finset Node) (q : List (Node × ℕ)),
      (∀ x ∈ v, x ∈ (nbrs.foldl (wlStep push d) (v, q)).1) ∧
      (∀ x ∈ (nbrs.foldl (wlStep push d) (v, q)).1, x ∈ v ∨ x ∈ nbrs) ∧
      (∀ x ∈ nbrs, x ∈ (nbrs.foldl (wlStep push d) (v, q)).1) ∧
      (∀ e ∈ q, e ∈ (nbrs.foldl (wlStep push d) (v, q)).2) ∧
      (∀ e ∈ (nbrs.foldl (wlStep push d) (v, q)).2,
        e ∈ q ∨ (e.1 ∈ nbrs ∧ e.1 ∉ v ∧ e.2 = d + 1)) ∧
      (∀ x ∈ (nbrs.foldl (wlStep push d) (v, q)).1, x ∉ v →
        (x, d + 1) ∈ (nbrs.foldl (wlStep push d) (v, q)).2) := by
  intro nbrs
  induction nbrs with
  | nil =>
    intro v q
    refine ⟨fun x hx => hx, fun x hx => Or.inl hx, fun x hx => absurd hx (List.not_mem_nil x),
      fun e he => he, fun e he => Or.inl he, fun x hx hnx => absurd hx hnx⟩
  | cons nb rest ih =>
    intro v q
    simp only [List.foldl_cons]
    by_cases hv : nb ∈ v
    · rw [show wlStep push d (v, q) nb = (v, q) from by simp [wlStep, hv]]
      obtain ⟨p1, p2, p3, p4, p5, p6⟩ := ih v q
      refine ⟨p1, fun x hx => ?_, fun x hx => ?_, p4, fun e he => ?_, p6⟩
      · rcases p2 x hx with h | h
        · exact Or.inl h
        · exact Or.inr (List.mem_cons_of_mem nb h)
      · rcases List.mem_cons.mp hx with rfl | h
        · exact p1 x hv
        · exact p3 x h
      · rcases p5 e he with h | ⟨h1, h2, h3⟩
        · exact Or.inl h
        · exact Or.inr ⟨List.mem_cons_of_mem nb h1, h2, h3⟩
    · rw [show wlStep push d (v, q) nb = (insert nb v, push q (nb, d + 1)) from by
        simp [wlStep, hv]]
      obtain ⟨p1, p2, p3, p4, p5, p6⟩ := ih (insert nb v) (push q (nb, d + 1))
      refine ⟨fun x hx => p1 x (Finset.mem_insert_of_mem hx), fun x hx => ?_,
        fun x hx => ?_, fun e he => p4 e ((hpush q (nb, d + 1) e).mpr (Or.inl he)),
        fun e he => ?_, fun x hx hnx => ?_⟩
      · rcases p2 x hx with h | h
        · rcases Finset.mem_insert.mp h with rfl | h2
          · exact Or.inr (List.mem_cons_self x rest)
          · exact Or.inl h2
        · exact Or.inr (List.mem_cons_of_mem nb h)
      · rcases List.mem_cons.mp hx with rfl | h
        · exact p1 x (Finset.mem_insert_self x v)
        · exact p3 x h
      · rcases p5 e he with h | ⟨h1, h2, h3⟩
        · rcases (hpush q (nb, d + 1) e).mp h with h4 | rfl
          · exact Or.inl h4
          · exact Or.inr ⟨List.mem_cons_self nb rest, hv, rfl⟩
        · refine Or.inr ⟨List.mem_cons_of_mem nb h1, fun h5 => h2 ?_, h3⟩
          exact Finset.mem_insert_of_mem h5
      · by_cases hx2 : x = nb
        · subst hx2
          exact p4 (x, d + 1) ((hpush q (x, d + 1) (x, d + 1)).mpr (Or.inr rfl))
        · exact p6 x hx (fun h => (Finset.mem_insert.mp h).elim hx2 hnx)

theorem foldl_wlStep_measure (g : Graph)
    (push : List (Node × ℕ) → Node × ℕ → List (Node × ℕ))
    (hlen : ∀ (q : List (Node × ℕ)) (e : Node × ℕ), (push q e).length = q.length + 1)
    (d : ℕ) :
    ∀ (nbrs : List Node) (v : Finset Node) (q : List (Node × ℕ)),
      (∀ nb ∈ nbrs, nb ∈ nodeUniv g) →
      (nodeUniv g \ (nbrs.foldl (wlStep push d) (v, q)).1).card
          + (nbrs.foldl (wlStep push d) (v, q)).2.length
        ≤ (nodeUniv g \ v).card + q.length := by
  intro nbrs
  induction nbrs with
  | nil => intro v q _; exact le_refl _
  | cons nb rest ih =>
    intro v q hmem
    simp only [List.foldl_cons]
    by_cases hv : nb ∈ v
    · rw [show wlStep push d (v, q) nb = (v, q) from by simp [wlStep, hv]]
      exact ih v q (fun x hx => hmem x (List.mem_cons_of_mem nb hx))
    · rw [show wlStep push d (v, q) nb = (insert nb v, push q (nb, d + 1)) from by
        simp [wlStep, hv]]
      have hU : nb ∈ nodeUniv g := hmem nb (List.mem_cons_self nb rest)
      have hmemd : nb ∈ nodeUniv g \ v := Finset.mem_sdiff.mpr ⟨hU, hv⟩
      have hsd : nodeUniv g \ insert nb v = (nodeUniv g \ v).erase nb := by
        ext x
        simp only [Finset.mem_sdiff, Finset.mem_erase, Finset.mem_insert]
        tauto
      have hcard : (nodeUniv g \ insert nb v).card = (nodeUniv g \ v).card - 1 := by
        rw [hsd]
        exact Finset.card_erase_of_mem hmemd
      have hpos : 0 < (nodeUniv g \ v).card := Finset.card_pos.mpr ⟨nb, hmemd⟩
      have h := ih (insert nb v) (push q (nb, d + 1))
        (fun x hx => hmem x (List.mem_cons_of_mem nb hx))
      rw [hcard, hlen q (nb, d + 1)] at h
      omega

theorem wlLoopF_complete (g : Graph)
    (push : List (Node × ℕ) → Node × ℕ → List (Node × ℕ))
    (hlen : ∀ (q : List (Node × ℕ)) (e : Node × ℕ), (push q e).length = q.length + 1) :
    ∀ (n : ℕ) (v : Finset Node) (dist q : List (Node × ℕ)),
      (nodeUniv g \ v).card + q.length ≤ n →
      ∃ r, wlLoopF g push n v dist q = some r := by
  intro n
  induction n with
  | zero =>
    intro v dist q hm
    have : q = [] := by
      cases q with
      | nil => rfl
      | cons e rest => simp [List.length_cons] at hm
    subst this
    exact ⟨dist, rfl⟩
  | succ n ih =>
    intro v dist q hm
    cases q with
    | nil => exact ⟨dist, rfl⟩
    | cons e rest =>
      obtain ⟨node, d⟩ := e
      have hsub : ∀ nb ∈ g.neighbors node, nb ∈ nodeUniv g := neighbors_mem_univ g node
      have h := foldl_wlStep_measure g push hlen d (g.neighbors node) v rest hsub
      have hm2 : (nodeUniv g \
            ((g.neighbors node).foldl (wlStep push d) (v, rest)).1).card
          + ((g.neighbors node).foldl (wlStep push d) (v, rest)).2.length ≤ n := by
        simp only [List.length_cons] at hm
        omega
      obtain ⟨r, hr⟩ := ih _ (hmInsert dist node d) _ hm2
      exact ⟨r, by simpa [wlLoopF] using hr⟩

theorem wlLoopF_mono (g : Graph)
    (push : List (Node × ℕ) → Node × ℕ → List (Node × ℕ)) :
    ∀ (n m : ℕ) (v : Finset Node) (dist q r : List (Node × ℕ)), n ≤ m →
      wlLoopF g push n v dist q = some r → wlLoopF g push m v dist q = some r := by
  intro n
  induction n with
  | zero =>
    intro m v dist q r _ h
    cases q with
    | nil => simpa [wlLoopF] using h
    | cons e rest => simp [wlLoopF] at h
  | succ n ih =>
    intro m v dist q r hnm h
    cases q with
    | nil => simpa [wlLoopF] using h
    | cons e rest =>
      obtain ⟨node, d⟩ := e
      obtain ⟨m2, rfl⟩ : ∃ m2, m = m2 + 1 := ⟨m - 1, by omega⟩
      simp only [wlLoopF] at h ⊢
      exact ih m2 _ _ _ r (by omega) h

theorem travInv_init (g : Graph) (s : Node) : TravInv g s {s} [] [(s, 0)] := by
  refine ⟨Finset.mem_singleton_self s, by simp [keys], by simp [keys], ?_, ?_, ?_,
    by simp [keys], Or.inr (List.mem_singleton_self _), ?_⟩
  · intro e he
    rw [List.mem_singleton] at he
    subst he
    exact Finset.mem_singleton_self s
  · intro x hx
    rw [Finset.mem_singleton] at hx
    subst hx
    exact Or.inr ⟨0, List.mem_singleton_self _⟩
  · intro x hx
    rw [Finset.mem_singleton] at hx
    subst hx
    exact ⟨0, ReachN.refl⟩
  · intro e he _
    rw [List.mem_singleton] at he
    subst he
    rfl

theorem travInv_nil (g : Graph) (s : Node) (v : Finset Node) (dist : List (Node × ℕ))
    (hinv : TravInv g s v dist []) : TravOut g s dist := by
  obtain ⟨i1, i2, i3, i4, i5, i6, i7, i8, i9⟩ := hinv
  have hveq : ∀ x ∈ v, x ∈ keys dist := by
    intro x hx
    rcases i5 x hx with h | ⟨dd, hdd⟩
    · exact h
    · exact absurd hdd (List.not_mem_nil _)
  refine ⟨i2, ?_, hveq s i1, fun x hx => i6 x (i3 x hx),
    fun x hx nb hnb => hveq nb (i7 x hx nb hnb)⟩
  rcases i8 with h | h
  · exact h
  · exact absurd h (List.not_mem_nil _)

theorem travInv_step (g : Graph) (s : Node)
    (push : List (Node × ℕ) → Node × ℕ → List (Node × ℕ))
    (hpush : ∀ (q : List (Node × ℕ)) (e x : Node × ℕ), x ∈ push q e ↔ x ∈ q ∨ x = e)
    (v : Finset Node) (dist : List (Node × ℕ)) (node : Node) (d : ℕ)
    (rest : List (Node × ℕ))
    (hinv : TravInv g s v dist ((node, d) :: rest)) :
    TravInv g s ((g.neighbors node).foldl (wlStep push d) (v, rest)).1
      (hmInsert dist node d)
      ((g.neighbors node).foldl (wlStep push d) (v, rest)).2 := by
  obtain ⟨i1, i2, i3, i4, i5, i6, i7, i8, i9⟩ := hinv
  obtain ⟨p1, p2, p3, p4, p5, p6⟩ := foldl_wlStep_mem push hpush d (g.neighbors node) v rest
  have hnodev : node ∈ v := i4 (node, d) (List.mem_cons_self _ _)
  refine ⟨p1 s i1, keys_hmInsert_nodup dist node d i2, ?_, ?_, ?_, ?_, ?_, ?_, ?_⟩
  · intro x hx
    rcases (keys_hmInsert dist node d x).mp hx with rfl | h
    · exact p1 x hnodev
    · exact p1 x (i3 x h)
  · intro e he
    rcases p5 e he with h | ⟨h1, _, _⟩
    · exact p1 e.1 (i4 e (List.mem_cons_of_mem _ h))
    · exact p3 e.1 h1
  · intro x hx
    by_cases hxv : x ∈ v
    · rcases i5 x hxv with h | ⟨dd, hdd⟩
      · exact Or.inl ((keys_hmInsert dist node d x).mpr (Or.inr h))
      · rcases List.mem_cons.mp hdd with heq | h2
        · exact Or.inl ((keys_hmInsert dist node d x).mpr
            (Or.inl (congrArg Prod.fst heq)))
        · exact Or.inr ⟨dd, p4 (x, dd) h2⟩
    · exact Or.inr ⟨d + 1, p6 x hx hxv⟩
  · intro x hx
    by_cases hxv : x ∈ v
    · exact i6 x hxv
    · rcases p2 x hx with h | h
      · exact absurd h hxv
      · obtain ⟨k, hk⟩ := i6 node hnodev
        exact ⟨k + 1, ReachN.step hk h⟩
  · intro x hx nb hnb
    rcases (keys_hmInsert dist node d x).mp hx with rfl | h
    · exact p3 nb hnb
    · exact p1 nb (i7 x h nb hnb)
  · by_cases hns : node = s
    · subst hns
      have hd0 : d = 0 := i9 (node, d) (List.mem_cons_self _ _) rfl
      subst hd0
      exact Or.inl (hmGet_hmInsert_self dist node 0)
    · rcases i8 with h | h
      · refine Or.inl ?_
        rw [hmGet_hmInsert_ne dist node d s (fun hh => hns hh.symm)]
        exact h
      · have hrest : (s, 0) ∈ rest := by
          rcases List.mem_cons.mp h with heq | h2
          · exact absurd (congrArg Prod.fst heq).symm hns
          · exact h2
        exact Or.inr (p4 (s, 0) hrest)
  · intro e he h1
    rcases p5 e he with h | ⟨_, hh2, _⟩
    · exact i9 e (List.mem_cons_of_mem _ h) h1
    · exact absurd i1 (h1 ▸ hh2)

theorem wlLoopF_post (g : Graph) (s : Node)
    (push : List (Node × ℕ) → Node × ℕ → List (Node × ℕ))
    (hpush : ∀ (q : List (Node × ℕ)) (e x : Node × ℕ), x ∈ push q e ↔ x ∈ q ∨ x = e) :
    ∀ (n : ℕ) (v : Finset Node) (dist q r : List (Node × ℕ)),
      wlLoopF g push n v dist q = some r → TravInv g s v dist q →
      TravOut g s r := by
  intro n
  induction n with
  | zero =>
    intro v dist q r h hinv
    cases q with
    | nil =>
      obtain rfl : dist = r := Option.some.inj (by simpa [wlLoopF] using h)
      exact travInv_nil g s v dist hinv
    | cons e rest => simp [wlLoopF] at h
  | succ n ih =>
    intro v dist q r h hinv
    cases q with
    | nil =>
      obtain rfl : dist = r := Option.some.inj (by simpa [wlLoopF] using h)
      exact travInv_nil g s v dist hinv
    | cons e rest =>
      obtain ⟨node, d⟩ := e
      simp only [wlLoopF] at h
      exact ih _ _ _ r h (travInv_step g s push hpush v dist node d rest hinv)

theorem travOut_reach_mem (g : Graph) (s : Node) (m : List (Node × ℕ))
    (ht : TravOut g s m) : ∀ x, Reach g s x → x ∈ keys m := by
  intro x ⟨k, hk⟩
  induction hk with
  | refl => exact ht.2.2.1
  | step hk hnb ih => exact ht.2.2.2.2 _ ih _ hnb

theorem pushStack_mem :
    ∀ (q : List (Node × ℕ)) (e x : Node × ℕ), x ∈ pushStack q e ↔ x ∈ q ∨ x = e := by
  intro q e x
  simp [pushStack, List.mem_cons, or_comm]

theorem pushQueueBack_mem :
    ∀ (q : List (Node × ℕ)) (e x : Node × ℕ), x ∈ pushQueueBack q e ↔ x ∈ q ∨ x = e := by
  intro q e x
  simp [pushQueueBack, List.mem_append]

theorem init_measure_le (g : Graph) (s : Node) :
    (nodeUniv g \ {s}).card + ([(s, 0)] : List (Node × ℕ)).length
      ≤ (nodeUniv g).card + 1 := by
  simp only [List.length_singleton]
  have := Finset.card_le_card (Finset.sdiff_subset (s := nodeUniv g) (t := {s}))
  omega

theorem bfs_travOut (g : Graph) (s : Node) : TravOut g s (g.bfs s) := by
  obtain ⟨r, hr⟩ := wlLoopF_complete g pushStack (fun q e => rfl)
    ((nodeUniv g).card + 1) {s} [] [(s, 0)] (init_measure_le g s)
  have hout : TravOut g s r :=
    wlLoopF_post g s pushStack pushStack_mem _ _ _ _ r hr (travInv_init g s)
  have hbfs : g.bfs s = r := by
    unfold Graph.bfs
    rw [hr]
    rfl
  rw [hbfs]
  exact hout

theorem bfsFifo_travOut (g : Graph) (s : Node) : TravOut g s (g.bfsFifo s) := by
  obtain ⟨r, hr⟩ := wlLoopF_complete g pushQueueBack
    (fun q e => by simp [pushQueueBack])
    ((nodeUniv g).card + 1) {s} [] [(s, 0)] (init_measure_le g s)
  have hout : TravOut g s r :=
    wlLoopF_post g s pushQueueBack pushQueueBack_mem _ _ _ _ r hr (travInv_init g s)
  have hbfs : g.bfsFifo s = r := by
    unfold Graph.bfsFifo
    rw [hr]
    rfl
  rw [hbfs]
  exact hout

theorem bfs_keys_reach (g : Graph) (s x : Node) :
    x ∈ keys (g.bfs s) ↔ Reach g s x := by
  constructor
  · exact fun h => (bfs_travOut g s).2.2.2.1 x h
  · exact fun h => travOut_reach_mem g s (g.bfs s) (bfs_travOut g s) x h

theorem bfsFifo_keys_reach (g : Graph) (s x : Node) :
    x ∈ keys (g.bfsFifo s) ↔ Reach g s x := by
  constructor
  · exact fun h => (bfsFifo_travOut g s).2.2.2.1 x h
  · exact fun h => travOut_reach_mem g s (g.bfsFifo s) (bfsFifo_travOut g s) x h

theorem bfs_source_mem (g : Graph) (s : Node) : (s, 0) ∈ g.bfs s :=
  hmGet_mem (g.bfs s) s 0 (bfs_travOut g s).2.1

theorem bfs_ne_nil (g : Graph) (s : Node) : g.bfs s ≠ [] := by
  intro h
  have hm := bfs_source_mem g s
  rw [h] at hm
  exact List.not_mem_nil _ hm

/-- C1: the claim asserts BFS minimality of every recorded distance.  The
source's worklist is a `Vec` popped from the back (LIFO), so on the graph
`gDeep` (edges 0→1, 0→2, 2→3, 3→4, 1→4) the traversal records node 4 at
distance 3 — reached through 0→2→3→4 — although a forward walk of only 2
edges (0→1→4) exists.  Evaluating the embedded code at this failing input
exhibits the divergence. -/
theorem bfs_assigns_nonminimal_distance :
    hmGet (gDeep.bfs 0) 4 = some 3 ∧ ReachN gDeep 0 2 4 := by
  constructor
  · decide
  · have h1 : ReachN gDeep 0 1 1 := ReachN.step ReachN.refl (by decide)
    exact ReachN.step h1 (by decide)

/-- C2 (counterexample): the FIFO (queue) variant of the traversal does not
produce the same distance map as the implemented LIFO (`Vec::pop`) variant —
on `gDeep` the LIFO run records node 4 at distance 3 while the FIFO run
records it at distance 2. -/
theorem bfs_lifo_fifo_distances_differ :
    hmGet (gDeep.bfs 0) 4 = some 3 ∧ hmGet (gDeep.bfsFifo 0) 4 = some 2 := by
  exact ⟨by decide, by decide⟩

/-- C2 (amended): what the removal discipline cannot change is the set of
nodes in the distance map — the LIFO and FIFO variants visit exactly the
same nodes (the nodes reachable from the source), though the distance values
they record may differ. -/
theorem bfs_lifo_fifo_same_key_set (g : Graph) (s x : Node) :
    x ∈ keys (g.bfs s) ↔ x ∈ keys (g.bfsFifo s) := by
  rw [bfs_keys_reach, bfsFifo_keys_reach]

/-- C3: on a graph with zero edges `node_count()` is `0`, and the code
divides by it anyway: `average_shortest_path_length` computes `0.0 / 0.0`
(a NaN, modelled `none` — no finite value) and `standard_deviation`
propagates it under its square root.  Neither function signals a
distinguishable error outcome; their return type is a plain `f64`. -/
theorem empty_graph_average_stddev_nonfinite :
    Graph.new.node_count = 0 ∧
    Graph.new.average_shortest_path_length 0 = none ∧
    Graph.new.standard_deviation_sq 0 = none := by
  have h0 : ((Graph.new.node_count : ℕ) : ℚ) = 0 := by
    rw [show Graph.new.node_count = 0 from rfl]
    norm_num
  have havg : Graph.new.average_shortest_path_length 0 = none := by
    unfold Graph.average_shortest_path_length f64div
    rw [if_pos h0]
  refine ⟨rfl, havg, ?_⟩
  unfold Graph.standard_deviation_sq
  rw [havg]

/-- C4: the claim asserts that adding an edge never increases any computed
distance.  Because the LIFO worklist records non-minimal distances, adding
the edge 3→4 to `gShort` (edges 0→1, 1→4, 0→2, 2→3) makes the traversal
reach node 4 through the longer walk 0→2→3→4 first, raising its recorded
distance from 2 to 3. -/
theorem add_edge_increases_computed_distance :
    hmGet (gShort.bfs 0) 4 = some 2 ∧
    hmGet ((gShort.add_edge 3 4).bfs 0) 4 = some 3 := by
  exact ⟨by decide, by decide⟩

/-- C5: on any graph with at least one adjacency key, the average is the sum
of the distance-map values divided by `node_count()` — the number of keys of
the adjacency map (nodes with at least one outgoing edge), not the number of
reachable nodes. -/
theorem average_divides_by_edge_key_count (g : Graph) (s : Node)
    (h : g.edges ≠ []) :
    g.average_shortest_path_length s =
      some (((((g.bfs s).map Prod.snd).sum : ℕ) : ℚ) / (g.node_count : ℚ)) := by
  have hne : ((g.node_count : ℕ) : ℚ) ≠ 0 := by
    simp only [ne_eq, Nat.cast_eq_zero, Graph.node_count, List.length_eq_zero]
    exact h
  unfold Graph.average_shortest_path_length f64div
  rw [if_neg hne]

/-- C5 (witness): the hypothesis is satisfiable — on the one-edge graph
`gOne` the average is defined and equals the stated quotient. -/
theorem average_divides_by_edge_key_count_witness :
    gOne.edges ≠ [] ∧
    gOne.average_shortest_path_length 0 =
      some (((((gOne.bfs 0).map Prod.snd).sum : ℕ) : ℚ) / (gOne.node_count : ℚ)) :=
  ⟨by decide, average_divides_by_edge_key_count gOne 0 (by decide)⟩

/-- C6: the distance map holds exactly one entry per node reachable from the
source by forward edges (its keys are distinct and are precisely the
reachable nodes), the source is recorded at distance 0, and a source without
out-edges yields the singleton map. -/
theorem bfs_distance_map_characterization (g : Graph) (s : Node) :
    (keys (g.bfs s)).Nodup ∧
    hmGet (g.bfs s) s = some 0 ∧
    (∀ x, x ∈ keys (g.bfs s) ↔ Reach g s x) ∧
    (g.neighbors s = [] → g.bfs s = [(s, 0)]) := by
  refine ⟨(bfs_travOut g s).1, (bfs_travOut g s).2.1, fun x => bfs_keys_reach g s x, ?_⟩
  intro h
  have honly : ∀ x, Reach g s x → x = s := by
    rintro x ⟨k, hk⟩
    induction hk with
    | refl => rfl
    | step hk hnb ih =>
      rw [ih] at hnb
      rw [h] at hnb
      exact absurd hnb (List.not_mem_nil _)
  have hall : ∀ x ∈ keys (g.bfs s), x = s :=
    fun x hx => honly x ((bfs_keys_reach g s x).mp hx)
  have hnd : (keys (g.bfs s)).Nodup := (bfs_travOut g s).1
  have hget : hmGet (g.bfs s) s = some 0 := (bfs_travOut g s).2.1
  cases hm : g.bfs s with
  | nil => exact absurd hm (bfs_ne_nil g s)
  | cons p m2 =>
    obtain ⟨a, b⟩ := p
    have ha : a = s := by
      apply hall a
      rw [hm]
      simp [keys]
    have hm2 : m2 = [] := by
      cases hm2 : m2 with
      | nil => rfl
      | cons p2 m3 =>
        obtain ⟨c, e⟩ := p2
        have hc : c = s := by
          apply hall c
          rw [hm, hm2]
          simp [keys]
        rw [hm, hm2] at hnd
        simp only [keys, List.map_cons, List.nodup_cons, List.mem_cons] at hnd
        exact absurd (Or.inl (ha.trans hc.symm)) hnd.1
    have hb : b = 0 := by
      rw [hm, hm2, ha] at hget
      simp [hmGet] at hget
      exact hget
    rw [hm2, ha, hb]

/-- C7: the worklist loop terminates on every finite graph and source — a
node is marked visited before it is pushed and the visited set only grows,
so `(nodeUniv g).card + 1` pops always suffice: every large enough fuel
makes the fuel-indexed loop return the same final distance map rather than
running out. -/
theorem bfs_worklist_terminates (g : Graph) (s : Node) :
    ∃ n, ∀ m, n ≤ m → wlLoopF g pushStack m {s} [] [(s, 0)] = some (g.bfs s) := by
  obtain ⟨r, hr⟩ := wlLoopF_complete g pushStack (fun q e => rfl)
    ((nodeUniv g).card + 1) {s} [] [(s, 0)] (init_measure_le g s)
  have hbfs : g.bfs s = r := by
    unfold Graph.bfs
    rw [hr]
    rfl
  refine ⟨(nodeUniv g).card + 1, fun m hm => ?_⟩
  rw [hbfs]
  exact wlLoopF_mono g pushStack _ m _ _ _ r hm hr

/-- C8: the reported median is computed from the distance values sorted
ascending — a sorted permutation of the map's values — as the exact middle
value for an odd count and the truncating integer mean of the two middle
values for an even count; both indices are in bounds because the map always
holds at least the source entry. -/
theorem median_formula_on_sorted_values (g : Graph) (s : Node) :
    List.Sorted (· ≤ ·) (sortedDistances g s) ∧
    (sortedDistances g s).Perm ((g.bfs s).map Prod.snd) ∧
    0 < (sortedDistances g s).length ∧
    (sortedDistances g s).length / 2 < (sortedDistances g s).length ∧
    ((sortedDistances g s).length % 2 = 0 →
      (sortedDistances g s).length / 2 - 1 < (sortedDistances g s).length) ∧
    g.median_shortest_path_length s =
      (if (sortedDistances g s).length % 2 = 0 then
        ((sortedDistances g s).getD ((sortedDistances g s).length / 2 - 1) 0 +
          (sortedDistances g s).getD ((sortedDistances g s).length / 2) 0) / 2
      else (sortedDistances g s).getD ((sortedDistances g s).length / 2) 0) := by
  have hperm : (sortedDistances g s).Perm ((g.bfs s).map Prod.snd) :=
    List.mergeSort_perm _ _
  have hlen : 0 < (sortedDistances g s).length := by
    rw [hperm.length_eq, List.length_map]
    exact List.length_pos.mpr (bfs_ne_nil g s)
  have htrans : ∀ (a b c : ℕ), (fun a b => decide (a ≤ b)) a b = true →
      (fun a b => decide (a ≤ b)) b c = true →
      (fun a b => decide (a ≤ b)) a c = true := by
    intro a b c h1 h2
    simp only [decide_eq_true_eq] at h1 h2 ⊢
    omega
  have htot : ∀ (a b : ℕ),
      ((fun a b => decide (a ≤ b)) a b || (fun a b => decide (a ≤ b)) b a) = true := by
    intro a b
    simp only [Bool.or_eq_true, decide_eq_true_eq]
    omega
  have hsorted : List.Sorted (· ≤ ·) (sortedDistances g s) := by
    have h := List.sorted_mergeSort htrans htot ((g.bfs s).map Prod.snd)
    exact h.imp (fun hab => by simpa using hab)
  refine ⟨hsorted, hperm, hlen, by omega, by omega, ?_⟩
  rfl

/-- C9: `max_shortest_path_length` and `min_shortest_path_length` are total:
an empty value list would fall back to the `usize::MAX` sentinel, and on a
map produced by the traversal the fallback is unreachable — the map always
holds the source entry, so both functions return actual extrema of the
values. -/
theorem minmax_sentinel_and_map_nonempty :
    (([] : List ℕ).max?.getD USIZE_MAX = USIZE_MAX) ∧
    (([] : List ℕ).min?.getD USIZE_MAX = USIZE_MAX) ∧
    ∀ (g : Graph) (s : Node),
      1 ≤ ((g.bfs s).map Prod.snd).length ∧
      (∃ v, ((g.bfs s).map Prod.snd).max? = some v ∧
        g.max_shortest_path_length s = v) ∧
      (∃ v, ((g.bfs s).map Prod.snd).min? = some v ∧
        g.min_shortest_path_length s = v) := by
  refine ⟨rfl, rfl, fun g s => ?_⟩
  have hne : (g.bfs s).map Prod.snd ≠ [] := by
    intro h
    exact bfs_ne_nil g s (List.map_eq_nil_iff.mp h)
  obtain ⟨x, xs, hx⟩ := List.exists_cons_of_ne_nil hne
  refine ⟨by rw [hx]; simp, ⟨xs.foldl max x, ?_, ?_⟩, ⟨xs.foldl min x, ?_, ?_⟩⟩
  · rw [hx]
    rfl
  · unfold Graph.max_shortest_path_length
    rw [hx]
    rfl
  · rw [hx]
    rfl
  · unfold Graph.min_shortest_path_length
    rw [hx]
    rfl

/-- C10: the minimum of the distance-map values is always exactly 0 — the
source is recorded with distance 0 and every distance is a non-negative
integer, whatever the graph's shape. -/
theorem min_shortest_path_length_eq_zero (g : Graph) (s : Node) :
    g.min_shortest_path_length s = 0 := by
  have h0 : (0 : ℕ) ∈ (g.bfs s).map Prod.snd :=
    List.mem_map.mpr ⟨(s, 0), bfs_source_mem g s, rfl⟩
  have hfold : ∀ (xs : List ℕ) (a : ℕ), (a = 0 ∨ 0 ∈ xs) → xs.foldl min a = 0 := by
    intro xs
    induction xs with
    | nil =>
      intro a ha
      rcases ha with ha | ha
      · exact ha
      · exact absurd ha (List.not_mem_nil _)
    | cons y ys ih =>
      intro a ha
      simp only [List.foldl_cons]
      apply ih
      rcases ha with ha | ha
      · subst ha
        exact Or.inl (Nat.zero_min y)
      · rcases List.mem_cons.mp ha with hy | hy
        · rw [← hy]
          exact Or.inl (Nat.min_zero a)
        · exact Or.inr hy
  obtain ⟨x, xs, hx⟩ := List.exists_cons_of_ne_nil
    (fun h => bfs_ne_nil g s (List.map_eq_nil_iff.mp (h : (g.bfs s).map Prod.snd = [])))
  unfold Graph.min_shortest_path_length
  rw [hx]
  show (some (xs.foldl min x)).getD USIZE_MAX = 0
  rw [hx] at h0
  rcases List.mem_cons.mp h0 with hx0 | hx0
  · simp only [Option.getD_some]
    exact hfold xs x (Or.inl hx0.symm)
  · simp only [Option.getD_some]
    exact hfold xs x (Or.inr hx0)
